import Mathlib

/-!
Shallow embedding of the RAG scripts in this repository
(`upload_to_pinecone.py`, `aws-chat-rag.py`, `aws-chat-rag-milvus.py`)
and proofs about the chunking, indexing and response-handling logic.

Text is modelled as `List Char`; Python slices, `str.rfind` and
`str.strip` are given explicit definitions below.  Fallible or
potentially diverging loops return `Option`.
-/

namespace RagSpec

/-- Python slice `l[a:b]` on a list of characters, for non-negative
bounds: everything from index `a` (inclusive) to `b` (exclusive),
clamped to the list. -/
def pySlice (l : List Char) (a b : Nat) : List Char :=
  (l.take b).drop a

/-- Python `s.rfind(c)`: the highest index at which `c` occurs in `l`,
or `-1` when it does not occur. -/
def rfind (l : List Char) (c : Char) : Int :=
  match l.reverse.findIdx? (fun x => x = c) with
  | some j => ((l.length - 1 - j : Nat) : Int)
  | none => -1

/-- ASCII whitespace recognised by Python `str.strip()` (the sample
texts only contain these). -/
def isPySpace (c : Char) : Bool :=
  c = ' ' || c = '\t' || c = '\n' || c = '\r' || c = '\x0B' || c = '\x0C'

/-- Python `s.strip()`: remove leading and trailing whitespace. -/
def pyStrip (l : List Char) : List Char :=
  ((l.dropWhile isPySpace).reverse.dropWhile isPySpace).reverse

/-- End position of the window starting at `start`, as computed by
`chunk_text` (src/upload_to_pinecone.py lines 24-34): `end = start +
chunk_size`; when `end < len(text)` the last `'.'` / newline inside
`text[start:end]` is located with `rfind` and, if that (window-relative)
index exceeds `start + chunk_size // 2`, the window is cut just after
it. -/
def windowEnd (text : List Char) (cs start : Nat) : Nat :=
  let e := start + cs
  if e < text.length then
    let chunk := pySlice text start e
    let lastPeriod := rfind chunk '.'
    let lastNewline := rfind chunk '\n'
    let breakPoint := max lastPeriod lastNewline
    if breakPoint > ((start + cs / 2 : Nat) : Int) then
      start + breakPoint.toNat + 1
    else e
  else e

/-- The `while start < len(text)` loop of `chunk_text`
(src/upload_to_pinecone.py lines 23-37), recorded as the list of
accepted window spans `(start, end)`; the chunk appended at each step is
`text[start:end].strip()` and the next start is `end - overlap`.  The
loop runs on explicit fuel; `none` models Python divergence (the loop
never exits). -/
def chunkLoop (text : List Char) (cs ov : Nat) : Nat → Nat → Option (List (Nat × Nat))
  | 0, _ => none
  | fuel + 1, start =>
    if start < text.length then
      match chunkLoop text cs ov fuel (windowEnd text cs start - ov) with
      | some rest => some ((start, windowEnd text cs start) :: rest)
      | none => none
    else
      some []

/-- Accepted window spans of `chunk_text` for a long text, starting at
`start = 0`, with enough fuel for any terminating run (the start
position strictly increases each iteration, so `text.length + 1` calls
suffice whenever the Python loop terminates). -/
def chunkSpans (text : List Char) (cs ov : Nat) : Option (List (Nat × Nat)) :=
  chunkLoop text cs ov (text.length + 1) 0

/-- Model of `chunk_text(text, chunk_size, overlap)`
(src/upload_to_pinecone.py lines 16-39).  A text of length at most
`chunk_size` is returned whole as a single chunk (no trimming on this
path); otherwise each accepted window span yields
`text[start:end].strip()`. -/
def chunkText (text : List Char) (cs : Nat := 1000) (ov : Nat := 200) :
    Option (List (List Char)) :=
  if text.length ≤ cs then some [text]
  else (chunkSpans text cs ov).map
    (fun sps => sps.map (fun sp => pyStrip (pySlice text sp.1 sp.2)))

/-! Basic lemmas about the Python string primitives. -/

theorem pySlice_length (l : List Char) (a b : Nat) :
    (pySlice l a b).length = min b l.length - a := by
  simp [pySlice]

theorem length_dropWhile_le (p : Char → Bool) (l : List Char) :
    (l.dropWhile p).length ≤ l.length := by
  induction l with
  | nil => simp
  | cons a l ih =>
    rw [List.dropWhile_cons]
    split
    · exact le_trans ih (by simp)
    · exact Nat.le_refl _

theorem pyStrip_length_le (l : List Char) : (pyStrip l).length ≤ l.length := by
  unfold pyStrip
  calc ((l.dropWhile isPySpace).reverse.dropWhile isPySpace).reverse.length
      = ((l.dropWhile isPySpace).reverse.dropWhile isPySpace).length := by
        rw [List.length_reverse]
    _ ≤ (l.dropWhile isPySpace).reverse.length := length_dropWhile_le _ _
    _ = (l.dropWhile isPySpace).length := by rw [List.length_reverse]
    _ ≤ l.length := length_dropWhile_le _ _

theorem rfind_lt (l : List Char) (c : Char) : rfind l c < (l.length : Int) := by
  unfold rfind
  split
  · next j hj =>
    cases l with
    | nil => simp at hj
    | cons a t => simp only [List.length_cons]; omega
  · have : (0 : Int) ≤ (l.length : Int) := Int.natCast_nonneg _
    omega

theorem pySlice_drop (l : List Char) (a b k : Nat) :
    (pySlice l a b).drop k = pySlice l (a + k) b := by
  simp [pySlice, List.drop_drop]

theorem pySlice_append_drop (l : List Char) (a b : Nat) (hab : a ≤ b) :
    pySlice l a b ++ l.drop b = l.drop a := by
  unfold pySlice
  rw [List.drop_take]
  have h1 : l.drop b = (l.drop a).drop (b - a) := by
    rw [List.drop_drop]; congr 1; omega
  rw [h1, List.take_append_drop]

/-! Lemmas about `windowEnd`: the accepted window never extends past
`start + chunk_size`, and (when `overlap < chunk_size // 2`) always
extends strictly past `start + overlap`, which gives loop progress. -/

theorem windowEnd_le (text : List Char) (cs start : Nat) :
    windowEnd text cs start ≤ start + cs := by
  unfold windowEnd
  simp only
  split
  · next hlt =>
    split
    · next hbp =>
      have hp := rfind_lt (pySlice text start (start + cs)) '.'
      have hn := rfind_lt (pySlice text start (start + cs)) '\n'
      have hlen : (pySlice text start (start + cs)).length ≤ cs := by
        rw [pySlice_length]; omega
      have : max (rfind (pySlice text start (start + cs)) '.')
          (rfind (pySlice text start (start + cs)) '\n') < (cs : Int) := by
        have hcast : ((pySlice text start (start + cs)).length : Int) ≤ (cs : Int) := by
          exact_mod_cast hlen
        omega
      omega
    · exact Nat.le_refl _
  · exact Nat.le_refl _

theorem windowEnd_gt (text : List Char) (cs ov start : Nat) (hov : ov < cs / 2) :
    start + ov < windowEnd text cs start := by
  unfold windowEnd
  simp only
  split
  · split
    · next hbp => omega
    · omega
  · omega

/-! Structural lemmas about the chunking loop. -/

theorem chunkLoop_cons_inv (text : List Char) (cs ov fuel start : Nat)
    (sps : List (Nat × Nat))
    (h : chunkLoop text cs ov (fuel + 1) start = some sps) :
    (text.length ≤ start ∧ sps = []) ∨
      (start < text.length ∧ ∃ rest,
        sps = (start, windowEnd text cs start) :: rest ∧
        chunkLoop text cs ov fuel (windowEnd text cs start - ov) = some rest) := by
  rw [chunkLoop] at h
  split at h
  · next hs =>
    right
    refine ⟨hs, ?_⟩
    cases hc : chunkLoop text cs ov fuel (windowEnd text cs start - ov) with
    | none => rw [hc] at h; simp at h
    | some rest =>
      rw [hc] at h
      simp only [Option.some_inj] at h
      exact ⟨rest, h.symm, rfl⟩
  · next hs =>
    left
    simp only [Option.some_inj] at h
    exact ⟨by omega, h.symm⟩

theorem chunkLoop_head (text : List Char) (cs ov fuel start : Nat)
    (p : Nat × Nat) (r : List (Nat × Nat))
    (h : chunkLoop text cs ov fuel start = some (p :: r)) : p.1 = start := by
  cases fuel with
  | zero => simp [chunkLoop] at h
  | succ fuel =>
    rcases chunkLoop_cons_inv text cs ov fuel start _ h with ⟨_, hnil⟩ | ⟨_, rest, heq, _⟩
    · simp at hnil
    · injection heq with h1 _
      rw [h1]

theorem chunkLoop_mem_windowEnd (text : List Char) (cs ov : Nat) :
    ∀ fuel start sps, chunkLoop text cs ov fuel start = some sps →
      ∀ sp ∈ sps, sp.2 = windowEnd text cs sp.1 := by
  intro fuel
  induction fuel with
  | zero => intro start sps h; simp [chunkLoop] at h
  | succ fuel ih =>
    intro start sps h sp hsp
    rcases chunkLoop_cons_inv text cs ov fuel start _ h with ⟨_, rfl⟩ | ⟨_, rest, rfl, hrest⟩
    · simp at hsp
    · rcases List.mem_cons.mp hsp with rfl | hmem
      · rfl
      · exact ih _ _ hrest sp hmem

theorem chunkLoop_chain (text : List Char) (cs ov : Nat) :
    ∀ fuel start sps, chunkLoop text cs ov fuel start = some sps →
      List.Chain' (fun p q : Nat × Nat => q.1 = p.2 - ov) sps := by
  intro fuel
  induction fuel with
  | zero => intro start sps h; simp [chunkLoop] at h
  | succ fuel ih =>
    intro start sps h
    rcases chunkLoop_cons_inv text cs ov fuel start _ h with ⟨_, rfl⟩ | ⟨_, rest, rfl, hrest⟩
    · exact List.chain'_nil
    · rw [List.chain'_cons']
      refine ⟨?_, ih _ _ hrest⟩
      intro q hq
      cases rest with
      | nil => simp at hq
      | cons q0 r0 =>
        simp only [List.head?_cons, Option.mem_def, Option.some_inj] at hq
        subst hq
        have := chunkLoop_head text cs ov fuel (windowEnd text cs start - ov) q0 r0 hrest
        simpa using this

theorem chunkLoop_isSome (text : List Char) (cs ov : Nat) (hov : ov < cs / 2) :
    ∀ fuel start, text.length - start < fuel →
      (chunkLoop text cs ov fuel start).isSome := by
  intro fuel
  induction fuel with
  | zero => intro start h; omega
  | succ fuel ih =>
    intro start h
    rw [chunkLoop]
    split
    · next hs =>
      have hgt := windowEnd_gt text cs ov start hov
      have hrec := ih (windowEnd text cs start - ov) (by omega)
      cases hc : chunkLoop text cs ov fuel (windowEnd text cs start - ov) with
      | none => rw [hc] at hrec; simp at hrec
      | some rest => simp [hc]
    · simp

theorem chunkLoop_recon (text : List Char) (cs ov : Nat) (hov : ov < cs / 2) :
    ∀ fuel start sps, chunkLoop text cs ov fuel start = some sps →
      (sps.map (fun q => (pySlice text q.1 q.2).drop ov)).flatten =
        text.drop (start + ov) := by
  intro fuel
  induction fuel with
  | zero => intro start sps h; simp [chunkLoop] at h
  | succ fuel ih =>
    intro start sps h
    rcases chunkLoop_cons_inv text cs ov fuel start _ h with ⟨hge, rfl⟩ | ⟨_, rest, rfl, hrest⟩
    · rw [List.drop_eq_nil_of_le (by omega : text.length ≤ start + ov)]
      simp
    · have hgt := windowEnd_gt text cs ov start hov
      have ihr := ih _ _ hrest
      rw [List.map_cons, List.flatten_cons, ihr]
      have hsub : windowEnd text cs start - ov + ov = windowEnd text cs start := by
        omega
      rw [hsub, pySlice_drop]
      simp only
      exact pySlice_append_drop text (start + ov) (windowEnd text cs start) (by omega)

/-! Reconstruction functions for the de-overlapping property. -/

/-- Concatenation of chunk strings with the first `ov` characters of
each chunk after the first removed (the reconstruction asserted by the
spec over the returned chunks). -/
def reconChunks (ov : Nat) : List (List Char) → List Char
  | [] => []
  | c :: r => c ++ (r.map (fun d => d.drop ov)).flatten

/-- Concatenation of the accepted window spans with the first `ov`
characters of each span after the first removed. -/
def reconSpans (text : List Char) (ov : Nat) : List (Nat × Nat) → List Char
  | [] => []
  | s :: r => pySlice text s.1 s.2 ++
      (r.map (fun q => (pySlice text q.1 q.2).drop ov)).flatten

/-! Claim theorems about the chunker. -/

/-- C1 (amended): for every text whose length is at most `chunk_size`,
`chunk_text` returns a list of exactly one chunk equal to the input
text unchanged — the short-text path returns the text without
trimming. -/
theorem chunkText_short (text : List Char) (cs ov : Nat)
    (h : text.length ≤ cs) : chunkText text cs ov = some [text] := by
  simp [chunkText, h]

/-- Witness for `chunkText_short` at the concrete input `" a "` with
`chunk_size = 5`, `overlap = 1`. -/
theorem chunkText_short_witness :
    " a ".toList.length ≤ 5 ∧ chunkText " a ".toList 5 1 = some [" a ".toList] :=
  ⟨by decide, chunkText_short " a ".toList 5 1 (by decide)⟩

/-- C1 counterexample: the whitespace-padded text `" a "` (length 3 ≤
chunk_size 5) is returned unchanged, not trimmed of leading and
trailing whitespace as the claim states. -/
theorem chunkText_short_not_trimmed :
    chunkText " a ".toList 5 1 = some [" a ".toList] ∧
      chunkText " a ".toList 5 1 ≠ some [pyStrip " a ".toList] := by
  refine ⟨by decide, by decide⟩

/-- C2 (code behaviour at the failing input): chunking
"abcdefghijklmno.qrs" with `chunk_size = 10`, `overlap = 2` — the
second window `text[8:18]` has its last period at window-relative index
7, strictly past the window midpoint `10 / 2 = 5`, yet the window is
not snapped and the second chunk keeps its full 10 characters, because
line 32 of src/upload_to_pinecone.py compares the window-relative
`rfind` index with the absolute position `start + chunk_size // 2 =
13`. -/
theorem chunkText_snap_skipped :
    chunkText "abcdefghijklmno.qrs".toList 10 2 =
      some ["abcdefghij".toList, "ijklmno.qr".toList, "qrs".toList] ∧
    rfind (pySlice "abcdefghijklmno.qrs".toList 8 18) '.' = 7 ∧
    ((10 : Nat) / 2 : Int) < 7 := by
  refine ⟨by decide, by decide, by decide⟩

/-- C3 counterexample: for "abcdefg.ijklmnop" with `chunk_size = 10`,
`overlap = 2` the first window is snapped at the period, giving span
(0, 8); the second window starts at 6, so the first two start positions
differ by 6, not by `chunk_size - overlap = 8`. -/
theorem chunkSpans_advance_not_constant :
    chunkSpans "abcdefg.ijklmnop".toList 10 2 =
      some [(0, 8), (6, 16), (14, 24)] ∧ (6 - 0 : Nat) ≠ 10 - 2 := by
  refine ⟨by decide, by decide⟩

/-- C3 (amended): after accepting a window span `(start, end)` the loop
sets the next start to `end - overlap`, so consecutive accepted spans
always overlap in exactly `overlap` positions of the original text
(`next.start + overlap = prev.end`); every span ends at
`windowEnd` of its start, so consecutive starts differ by
`chunk_size - overlap` exactly when the earlier window was not
snapped. -/
theorem chunkSpans_overlap (text : List Char) (cs ov : Nat)
    (hov : ov < cs / 2) (sps : List (Nat × Nat))
    (h : chunkSpans text cs ov = some sps) :
    (∀ sp ∈ sps, sp.2 = windowEnd text cs sp.1) ∧
    List.Chain' (fun p q : Nat × Nat => q.1 + ov = p.2) sps := by
  unfold chunkSpans at h
  have hmem := chunkLoop_mem_windowEnd text cs ov _ _ _ h
  refine ⟨hmem, ?_⟩
  have hchain := chunkLoop_chain text cs ov _ _ _ h
  have hall : ∀ sp ∈ sps, ov < sp.2 := by
    intro sp hsp
    have h2 := hmem sp hsp
    have h3 := windowEnd_gt text cs ov sp.1 hov
    omega
  clear h hmem
  induction sps with
  | nil => exact List.chain'_nil
  | cons p rest ih =>
    rw [List.chain'_cons'] at hchain ⊢
    refine ⟨?_, ih hchain.2 (fun sp hsp => hall sp (List.mem_cons_of_mem _ hsp))⟩
    intro q hq
    have h1 := hchain.1 q hq
    have h2 := hall p (List.mem_cons_self _ _)
    omega

/-- Witness for `chunkSpans_overlap`: the spans of "abcdefg.ijklmnop"
chunked with `chunk_size = 10`, `overlap = 2` overlap pairwise in
exactly 2 positions. -/
theorem chunkSpans_overlap_witness :
    List.Chain' (fun p q : Nat × Nat => q.1 + 2 = p.2)
      [(0, 8), (6, 16), (14, 24)] :=
  (chunkSpans_overlap "abcdefg.ijklmnop".toList 10 2 (by decide)
    [(0, 8), (6, 16), (14, 24)] (by decide)).2

/-- C4 counterexample: the returned chunks are whitespace-trimmed, so
for "abc de fgh" with `chunk_size = 4`, `overlap = 1` the chunks are
["abc", "de", "fgh", "h"] and removing the 1-character overlapping
prefix of each chunk after the first and concatenating yields
"abcegh", not the original text. -/
theorem reconChunks_fails :
    chunkText "abc de fgh".toList 4 1 =
      some ["abc".toList, "de".toList, "fgh".toList, "h".toList] ∧
    reconChunks 1 ["abc".toList, "de".toList, "fgh".toList, "h".toList] ≠
      "abc de fgh".toList := by
  refine ⟨by decide, by decide⟩

/-- C4 (amended): for every text longer than `chunk_size` (and
`overlap < chunk_size / 2`), concatenating the accepted window spans of
the text, with the first `overlap` characters of each span after the
first removed, reconstructs the original text; the returned chunk
strings themselves need not, because each one is whitespace-trimmed
after the window is cut. -/
theorem reconSpans_chunkSpans (text : List Char) (cs ov : Nat)
    (hov : ov < cs / 2) (hlen : cs < text.length) (sps : List (Nat × Nat))
    (h : chunkSpans text cs ov = some sps) :
    reconSpans text ov sps = text := by
  unfold chunkSpans at h
  rcases chunkLoop_cons_inv text cs ov text.length 0 sps h with
    ⟨hge, rfl⟩ | ⟨_, rest, rfl, hrest⟩
  · exfalso; omega
  · have hgt := windowEnd_gt text cs ov 0 hov
    have hrec := chunkLoop_recon text cs ov hov _ _ _ hrest
    simp only [reconSpans]
    rw [hrec]
    have hsub : windowEnd text cs 0 - ov + ov = windowEnd text cs 0 := by omega
    rw [hsub]
    have happ := pySlice_append_drop text 0 (windowEnd text cs 0) (by omega)
    simp only at happ ⊢
    rw [happ]
    exact List.drop_zero text

/-- Witness for `reconSpans_chunkSpans` at "abcdefg.ijklmnop" with
`chunk_size = 10`, `overlap = 2`. -/
theorem reconSpans_chunkSpans_witness :
    reconSpans "abcdefg.ijklmnop".toList 2 [(0, 8), (6, 16), (14, 24)] =
      "abcdefg.ijklmnop".toList :=
  reconSpans_chunkSpans "abcdefg.ijklmnop".toList 10 2 (by decide) (by decide)
    [(0, 8), (6, 16), (14, 24)] (by decide)

/-- C9: when `overlap < chunk_size // 2` (as with the defaults
`chunk_size = 1000`, `overlap = 200`) `chunk_text` terminates on every
input text and returns a finite, fully materialized chunk list. -/
theorem chunkText_total (text : List Char) (cs ov : Nat)
    (hov : ov < cs / 2) : (chunkText text cs ov).isSome := by
  unfold chunkText
  split
  · rfl
  · have hsome := chunkLoop_isSome text cs ov hov (text.length + 1) 0 (by omega)
    unfold chunkSpans
    cases hc : chunkLoop text cs ov (text.length + 1) 0 with
    | none => rw [hc] at hsome; simp at hsome
    | some sps => rfl

/-- Witness for `chunkText_total` at a concrete long input. -/
theorem chunkText_total_witness :
    (chunkText "abcdefg.ijklmnop".toList 10 2).isSome :=
  chunkText_total "abcdefg.ijklmnop".toList 10 2 (by decide)

/-- C10: for every input text, `chunk_size ≥ 1` and overlap, every
chunk string in a returned chunk list has length at most `chunk_size`:
boundary snapping and trimming only ever shorten a window. -/
theorem chunkText_chunk_le (text : List Char) (cs ov : Nat) (hcs : 1 ≤ cs)
    (l : List (List Char)) (h : chunkText text cs ov = some l) :
    ∀ c ∈ l, c.length ≤ cs := by
  intro c hc
  unfold chunkText at h
  split at h
  · next hshort =>
    simp only [Option.some_inj] at h
    subst h
    simp only [List.mem_singleton] at hc
    subst hc
    exact hshort
  · next hlong =>
    rw [Option.map_eq_some'] at h
    obtain ⟨sps, hsps, rfl⟩ := h
    rw [List.mem_map] at hc
    obtain ⟨sp, hsp, rfl⟩ := hc
    unfold chunkSpans at hsps
    have hwe := chunkLoop_mem_windowEnd text cs ov _ _ _ hsps sp hsp
    have hle := windowEnd_le text cs sp.1
    calc (pyStrip (pySlice text sp.1 sp.2)).length
        ≤ (pySlice text sp.1 sp.2).length := pyStrip_length_le _
      _ = min sp.2 text.length - sp.1 := pySlice_length _ _ _
      _ ≤ cs := by omega

/-- Witness for `chunkText_chunk_le` on the chunks of "abc de fgh" with
`chunk_size = 4`, `overlap = 1`. -/
theorem chunkText_chunk_le_witness :
    ("abc".toList).length ≤ 4 ∧ ("fgh".toList).length ≤ 4 :=
  ⟨chunkText_chunk_le "abc de fgh".toList 4 1 (by decide)
      ["abc".toList, "de".toList, "fgh".toList, "h".toList] (by decide)
      "abc".toList (by decide),
    chunkText_chunk_le "abc de fgh".toList 4 1 (by decide)
      ["abc".toList, "de".toList, "fgh".toList, "h".toList] (by decide)
      "fgh".toList (by decide)⟩

/-! Model of `upload_documents` (src/upload_to_pinecone.py lines
41-81): building the vector list, batching and the summary count. -/

/-- A metadata value: the metadata dict holds strings and ints. -/
inductive MVal where
  | s (v : String)
  | n (v : Nat)
deriving DecidableEq

/-- An input document; `id`, `title`, `source` and the extra `metadata`
key may be absent (`doc.get(...)`, and the extra metadata key may be missing from the dict). -/
structure Doc where
  id : Option String := none
  title : Option String := none
  source : Option String := none
  text : List Char := []
  metadata : Option (List (String × MVal)) := none

/-- Python `dict.update`: keys of `base` keep their position with
values overridden by `extra` where present; new keys of `extra` are
appended in order. -/
def dictUpdate (base extra : List (String × MVal)) : List (String × MVal) :=
  base.map (fun kv =>
    match extra.find? (fun e => e.1 == kv.1) with
    | some e => e
    | none => kv) ++
  extra.filter (fun e => (base.find? (fun kv => kv.1 == e.1)).isNone)

/-- A vector prepared for upsert (lines 64-68). -/
structure PineVector where
  id : String
  values : List Float
  metadata : List (String × MVal)

/-- Vectors built for one document (lines 44-68).  `embed` stands for
`embedding_model.encode(...).tolist()` and `uuid n` for the result of
the `n`-th `str(uuid.uuid4())` call of the run (Python evaluates that
default argument of `doc.get` once per chunk, whether used or not).
`chunk_text` is called with its default `chunk_size`/`overlap`; by
`chunkText_total` it then always returns `some`, so the `none` branch
is unreachable. -/
def vectorsForDoc (embed : List Char → List Float) (uuid : Nat → String)
    (n0 : Nat) (doc : Doc) : List PineVector :=
  match chunkText doc.text 1000 200 with
  | none => []
  | some chunks =>
    (List.range chunks.length).map (fun i =>
      { id := (match doc.id with
          | some s => s
          | none => uuid (n0 + i)) ++ "_chunk_" ++ Nat.repr i
        values := embed (chunks.getD i [])
        metadata := dictUpdate
          [("text", MVal.s (String.mk (chunks.getD i []))),
           ("title", MVal.s (doc.title.getD "Untitled")),
           ("source", MVal.s (doc.source.getD "Unknown")),
           ("chunk_index", MVal.n i),
           ("total_chunks", MVal.n chunks.length)]
          (doc.metadata.getD []) })

/-- All vectors accumulated over the document list (lines 42-68),
threading the uuid call counter through the documents. -/
def uploadVectors (embed : List Char → List Float) (uuid : Nat → String) :
    Nat → List Doc → List PineVector
  | _, [] => []
  | n, d :: ds =>
    vectorsForDoc embed uuid n d ++
      uploadVectors embed uuid (n + (vectorsForDoc embed uuid n d).length) ds

/-- The batch upload loop (lines 70-79): batch `k` is
`vectors_to_upload[k*100 : k*100 + 100]`; `ok k` records whether
`index.upsert` succeeds on batch `k` (an exception is caught, reported,
and the loop continues with the next batch either way). -/
def uploadRun (ok : Nat → Bool) (vs : List PineVector) :
    List (List PineVector × Bool) :=
  (List.range ((vs.length + 100 - 1) / 100)).map
    (fun k => ((vs.drop (k * 100)).take 100, ok k))

/-- The summary printed on line 81: the total number of prepared
vectors, printed whether or not any batch failed. -/
def uploadSummary (vs : List PineVector) : Nat := vs.length

/-- Number of vectors that were actually upserted: the total size of
the batches whose upsert succeeded. -/
def succeededCount (ok : Nat → Bool) (vs : List PineVector) : Nat :=
  (((uploadRun ok vs).filter (fun b => b.2)).map (fun b => b.1.length)).sum

/-- Ids of the vectors built for a document with an explicit id do not
depend on the embedding model, the uuid stream, or the uuid counter. -/
theorem vectorsForDoc_ids_indep (embed embed2 : List Char → List Float)
    (uuid uuid2 : Nat → String) (n1 n2 : Nat) (doc : Doc)
    (hid : doc.id.isSome) :
    (vectorsForDoc embed uuid n1 doc).map (fun v => v.id) =
      (vectorsForDoc embed2 uuid2 n2 doc).map (fun v => v.id) := by
  obtain ⟨did, hdid⟩ := Option.isSome_iff_exists.mp hid
  unfold vectorsForDoc
  cases chunkText doc.text 1000 200 with
  | none => rfl
  | some chunks => simp [hdid, List.map_map]

/-- C5: the vector built for the i-th chunk of a document with id
`did` has id `did ++ "_chunk_" ++ i`, and two runs of
`upload_documents` on the same documents (with the fixed chunker
configuration baked into the code) produce identical id lists whenever
every document carries an id, regardless of the embedding results and
the freshly drawn uuids. -/
theorem upload_vector_ids (embed embed2 : List Char → List Float)
    (uuid uuid2 : Nat → String) (n0 n2 : Nat) (doc : Doc) (did : String)
    (hid : doc.id = some did) (chunks : List (List Char))
    (hc : chunkText doc.text 1000 200 = some chunks)
    (docs : List Doc) (hds : ∀ d ∈ docs, d.id.isSome) :
    ((vectorsForDoc embed uuid n0 doc).map (fun v => v.id) =
      (List.range chunks.length).map (fun i => did ++ "_chunk_" ++ Nat.repr i)) ∧
    ((uploadVectors embed uuid n0 docs).map (fun v => v.id) =
      (uploadVectors embed2 uuid2 n2 docs).map (fun v => v.id)) := by
  constructor
  · unfold vectorsForDoc
    rw [hc]
    simp [hid, List.map_map]
  · induction docs generalizing n0 n2 with
    | nil => rfl
    | cons d ds ih =>
      simp only [uploadVectors, List.map_append]
      rw [vectorsForDoc_ids_indep embed embed2 uuid uuid2 _ _ d
          (hds d (List.mem_cons_self _ _)),
        ih _ _ (fun d hd => hds d (List.mem_cons_of_mem _ hd))]

/-- Witness for `upload_vector_ids`: a document with id "doc1" and one
chunk gets the id "doc1_chunk_0", and the ids are unchanged across two
runs with different embeddings, uuid streams and counters. -/
theorem upload_vector_ids_witness :
    ((vectorsForDoc (fun _ => []) (fun _ => "u") 0
        { id := some "doc1", text := "hi".toList }).map (fun v => v.id) =
      (List.range 1).map (fun i => "doc1" ++ "_chunk_" ++ Nat.repr i)) ∧
    ((uploadVectors (fun _ => []) (fun _ => "u") 0
        [{ id := some "doc1", text := "hi".toList }]).map (fun v => v.id) =
      (uploadVectors (fun _ => [0.5]) (fun _ => "w") 5
        [{ id := some "doc1", text := "hi".toList }]).map (fun v => v.id)) :=
  upload_vector_ids (fun _ => []) (fun _ => [0.5]) (fun _ => "u") (fun _ => "w")
    0 5 { id := some "doc1", text := "hi".toList } "doc1" rfl
    ["hi".toList] (by decide)
    [{ id := some "doc1", text := "hi".toList }] (by decide)

/-- Partition-into-batches-of-100 reassembles the vector list. -/
theorem flatten_batches100 :
    ∀ (n : Nat) (vs : List PineVector), n = (vs.length + 100 - 1) / 100 →
      ((List.range n).map (fun k => (vs.drop (k * 100)).take 100)).flatten = vs := by
  intro n
  induction n with
  | zero =>
    intro vs hn
    have hlen : vs.length = 0 := by omega
    rw [List.length_eq_zero.mp hlen]
    simp
  | succ n ih =>
    intro vs hn
    rw [List.range_succ_eq_map, List.map_cons, List.map_map, List.flatten_cons]
    have hmap : (List.range n).map
        ((fun k => (vs.drop (k * 100)).take 100) ∘ Nat.succ) =
        (List.range n).map (fun k => ((vs.drop 100).drop (k * 100)).take 100) := by
      refine List.map_congr_left (fun k _ => ?_)
      simp only [Function.comp_apply]
      rw [List.drop_drop]
      congr 2
      omega
    rw [hmap, ih (vs.drop 100) (by rw [List.length_drop]; omega)]
    simp only [Nat.zero_mul, List.drop_zero]
    exact List.take_append_drop 100 vs

/-- C6 (amended): the upload loop partitions the vectors into
consecutive batches of at most 100, attempts every batch regardless of
earlier failures (the number of attempted batches does not depend on
which upserts fail), and after all batches reports a single summary
count equal to the total number of prepared vectors — it does not
distinguish succeeded from failed vectors. -/
theorem uploadRun_spec (ok : Nat → Bool) (vs : List PineVector) :
    (∀ b ∈ uploadRun ok vs, b.1.length ≤ 100) ∧
    ((uploadRun ok vs).map (fun b => b.1)).flatten = vs ∧
    (uploadRun ok vs).length = (vs.length + 100 - 1) / 100 ∧
    uploadSummary vs = vs.length := by
  refine ⟨?_, ?_, ?_, rfl⟩
  · intro b hb
    rw [uploadRun, List.mem_map] at hb
    obtain ⟨k, _, rfl⟩ := hb
    simp only [List.length_take]
    omega
  · rw [uploadRun, List.map_map]
    exact flatten_batches100 _ vs rfl
  · rw [uploadRun, List.length_map, List.length_range]

/-- Witness for `uploadRun_spec`: a single all-failing batch still
covers the whole vector list. -/
theorem uploadRun_spec_witness :
    ((uploadRun (fun _ => false)
        [{ id := "v", values := [], metadata := [] }]).map (fun b => b.1)).flatten =
      [{ id := "v", values := [], metadata := [] }] :=
  (uploadRun_spec (fun _ => false)
    [{ id := "v", values := [], metadata := [] }]).2.1

/-- C6 counterexample: with one vector and a failing upsert, the
summary printed on line 81 is the total count 1 even though 0 vectors
succeeded — the code surfaces no succeeded-versus-failed split. -/
theorem uploadSummary_not_succeeded :
    uploadSummary [{ id := "v", values := [], metadata := [] }] = 1 ∧
    succeededCount (fun _ => false)
      [{ id := "v", values := [], metadata := [] }] = 0 ∧
    uploadSummary [{ id := "v", values := [], metadata := [] }] ≠
      succeededCount (fun _ => false)
        [{ id := "v", values := [], metadata := [] }] := by
  refine ⟨rfl, rfl, by decide⟩

/-! Model of the inference-response handling in `ask_ai`
(src/aws-chat-rag.py lines 121-148, src/aws-chat-rag-milvus.py lines
98-119) and of the milvus main flow (lines 121-157). -/

/-- A tool call inside a model message. -/
structure ToolCall where
  id : String
  fname : String
  arguments : String

/-- A model message: `content` plus optional tool calls. -/
structure ChatMsg where
  content : String := ""
  tool_calls : List ToolCall := []

/-- One entry of the `choices` list of a response body. -/
structure Choice where
  message : ChatMsg

/-- Parsed inference response body; `choices = none` models a body
without a `"choices"` key. -/
structure RespBody where
  choices : Option (List Choice)

/-- Lines 145-148 of src/aws-chat-rag.py: when `"choices"` is present
and nonempty the message of the first choice is returned, otherwise a
sentinel message whose content reports "no response". -/
def askAiResult (rb : RespBody) : ChatMsg :=
  match rb.choices with
  | some (c :: _) => c.message
  | _ => { content := "Error: No response from AI" }

/-- Lines 116-119 of src/aws-chat-rag-milvus.py: the same check,
returning the content string of the first choice or the sentinel string. -/
def askAiResultMilvus (rb : RespBody) : String :=
  match rb.choices with
  | some (c :: _) => c.message.content
  | _ => "Error: No response from AI"

/-- A retrieval result dict as built by `retrieve_relevant_docs`
(src/aws-chat-rag-milvus.py lines 68-77). -/
structure RDoc where
  content : String
  title : String := ""
  source : String := ""
  chunk_index : Nat := 0
  total_chunks : Nat := 1
  score : Float := 0

/-- Lines 83-96 of src/aws-chat-rag-milvus.py: the RAG prompt built
from the retrieved contents (joined by blank lines) and the query. -/
def createRagPrompt (q : String) (docs : List RDoc) : String :=
  "Based on the following context, please answer the user\x27s question:\n\nContext:\n" ++
    String.intercalate "\n\n" (docs.map (fun d => d.content)) ++
    "\n\nUser Question: " ++ q ++
    "\n\nPlease provide a helpful answer based on the context provided. If the context doesn\x27t contain relevant information, you can use your general knowledge but mention that the context didn\x27t contain specific information about this topic."

/-- The milvus main flow (src/aws-chat-rag-milvus.py lines 132-157)
with the external services as oracles: `connectOk` is whether
`milvus_rag.connect()` succeeds, `docs` the retrieval result and `inf`
the inference endpoint (prompt to parsed response body).  A connection
failure lands in the `except` branch; with a nonempty retrieval the
model is asked with the RAG prompt, and with an empty retrieval it is
asked with the plain user prompt. -/
def milvusMain (connectOk : Bool) (docs : List RDoc)
    (inf : String → RespBody) (q : String) : Except String String :=
  if connectOk then
    if docs.isEmpty then
      Except.ok (askAiResultMilvus (inf q))
    else
      Except.ok (askAiResultMilvus (inf (createRagPrompt q docs)))
  else
    Except.error "Failed to connect to Milvus"

/-- C7: for every response body, a missing or empty `choices` list
makes both `ask_ai` variants return the "no response" sentinel (no
exception is raised - the functions are total), and otherwise they
return the message of the first choice (resp. its content). -/
theorem askAi_choices_check (rb : RespBody) :
    ((rb.choices = none ∨ rb.choices = some []) →
      askAiResult rb = { content := "Error: No response from AI" } ∧
      askAiResultMilvus rb = "Error: No response from AI") ∧
    (∀ (c : Choice) (rest : List Choice), rb.choices = some (c :: rest) →
      askAiResult rb = c.message ∧
      askAiResultMilvus rb = c.message.content) := by
  constructor
  · rintro (h | h) <;> simp [askAiResult, askAiResultMilvus, h]
  · intro c rest h
    constructor <;> simp [askAiResult, askAiResultMilvus, h]

/-- Witness for `askAi_choices_check`: a body without `choices` yields
the sentinel, a body with one choice yields the message of that choice. -/
theorem askAi_choices_check_witness :
    askAiResult { choices := none } = { content := "Error: No response from AI" } ∧
    askAiResult { choices := some [{ message := { content := "hi" } }] } =
      { content := "hi" } :=
  ⟨((askAi_choices_check { choices := none }).1 (Or.inl rfl)).1,
    ((askAi_choices_check { choices := some [{ message := { content := "hi" } }] }).2
      { message := { content := "hi" } } [] rfl).1⟩

/-- C8: a query whose retrieval returns zero results is not an error:
the main flow still returns an `ok` answer obtained by asking the model
with the plain user prompt (no injected context), and for every
response body that answer is either the message content of the model or
the non-empty "no response" sentinel. -/
theorem milvusMain_empty_fallback (inf : String → RespBody) (q : String) :
    milvusMain true [] inf q = Except.ok (askAiResultMilvus (inf q)) ∧
    ∀ rb : RespBody,
      (∃ (c : Choice) (rest : List Choice), rb.choices = some (c :: rest) ∧
        askAiResultMilvus rb = c.message.content) ∨
      (askAiResultMilvus rb = "Error: No response from AI" ∧
        0 < (askAiResultMilvus rb).length) := by
  constructor
  · rfl
  · intro rb
    match h : rb.choices with
    | some (c :: rest) =>
      exact Or.inl ⟨c, rest, rfl, by simp [askAiResultMilvus, h]⟩
    | some [] =>
      refine Or.inr ⟨by simp [askAiResultMilvus, h], ?_⟩
      have hs : askAiResultMilvus rb = "Error: No response from AI" := by
        simp [askAiResultMilvus, h]
      rw [hs]
      decide
    | none =>
      refine Or.inr ⟨by simp [askAiResultMilvus, h], ?_⟩
      have hs : askAiResultMilvus rb = "Error: No response from AI" := by
        simp [askAiResultMilvus, h]
      rw [hs]
      decide

end RagSpec
